import Mathlib

/-!
Shallow embedding of `src/testrunner.go` (package main of Pronovix/testrunner),
the variant with the success/failure counters, the dedup set `files`, the
`-verbose` flag and the trimming printer.  External collaborators (the regexp
engine, the filesystem walk, the invoked command) are passed in as oracles:
`compile` for `regexp.Compile`, a list of `WalkEntry` for the sequence of
`filepath.Walk` callback invocations, and `exec` for `exec.Cmd.CombinedOutput`.
The concurrent pipeline is embedded sequentially: each dispatched WorkItem is
processed exactly once, in dispatch order, which realises the per-item
atomicity the source enforces (one worker per item, counters under
`resultMtx`).  The intra-item event order (execute, count, wg.Done, emit) is
embedded separately as an event trace.
-/

namespace Testrunner

/-- Character class of Go's regexp `\s`: `[\t\n\f\r ]`.  Embeds the
`split = regexp.MustCompile` pattern used to split the `-command` string. -/
def goWs (c : Char) : Bool :=
  c = ' ' || c = '\t' || c = '\n' || c = '\x0c' || c = '\r'

/-- Worker loop of `split.Split(s, -1)`: pieces of `s` between maximal
whitespace runs, keeping empty boundary pieces.  `some acc` means a piece
(reversed in `acc`) is being accumulated; `none` means the scan is inside a
separator run whose piece has already been flushed. -/
def splitWsAux : List Char → Option (List Char) → List String
  | [], some acc => [⟨acc.reverse⟩]
  | [], none => [""]
  | c :: cs, some acc =>
    if goWs c then ⟨acc.reverse⟩ :: splitWsAux cs none
    else splitWsAux cs (some (c :: acc))
  | c :: cs, none =>
    if goWs c then splitWsAux cs none
    else splitWsAux cs (some [c])

/-- Embedding of `parts = split.Split(*command, -1)`: split on runs of `\s+`, with no
limit, so leading/trailing separators give empty pieces. -/
def splitWs (s : String) : List String :=
  splitWsAux s.data (some [])

/-- Result of one `exec.Cmd.CombinedOutput` call at the OS boundary:
the merged stdout+stderr bytes, whether `err == nil`, and the rendering of
the elapsed `time.Since(start)` for this invocation.  On a launch failure
(`Start` fails, e.g. missing executable) Go's `CombinedOutput` returns the
untouched output buffer, so `out` is empty and the error text is only in
the non-nil `err`, which the embedding records as `ok = false`. -/
structure ExecBehavior where
  out : String
  ok : Bool
  elapsed : String
deriving Repr, DecidableEq

/-- The data `run` produces for one WorkItem: the argv actually run
(`cmd.Args = append(parts[:], path)`), the captured combined output, the
elapsed-time rendering, and whether the invocation failed. -/
structure ExecReport where
  cmdline : List String
  output : String
  elapsedStr : String
  failed : Bool
deriving Repr, DecidableEq

/-- Oracle type standing for the OS running one command:
executable path (`cmd.Path`) and argv (`cmd.Args`) to observed behaviour. -/
def ExecOracle : Type := String → List String → ExecBehavior

/-- Core of `run(path, wg)`: `cmdparts := append(parts[:], path)`,
`cmd := exec.Cmd{Path: parts[0], Args: cmdparts}`, one `CombinedOutput`
call.  `parts.headD ""` is `parts[0]`; `splitWs` never returns an empty
list, so the default is never taken on a real run. -/
def runCmd (parts : List String) (exec : ExecOracle) (path : String) :
    ExecReport :=
  let cmdparts := parts ++ [path]
  let b := exec (parts.headD "") cmdparts
  { cmdline := cmdparts
    output := b.out
    elapsedStr := b.elapsed
    failed := !b.ok }

/-- The string `run` returns:
`fmt.Sprintf("Running %s\n\n%s\n\nElapsed: %s\n", strings.Join(cmdparts, " "), string(out), elapsed)`. -/
def formatReport (r : ExecReport) : String :=
  "Running " ++ String.intercalate " " r.cmdline ++ "\n\n" ++ r.output ++
    "\n\nElapsed: " ++ r.elapsedStr ++ "\n"

/-- The ResultAggregator state: the global `success` and `fail` counters. -/
structure Counters where
  success : Nat
  fail : Nat
deriving Repr, DecidableEq

/-- The locked section of `run`: `if err != nil { fail += 1 } else { success += 1 }`. -/
def tally (c : Counters) (failed : Bool) : Counters :=
  if failed then { c with fail := c.fail + 1 }
  else { c with success := c.success + 1 }

/-- Sequential embedding of the worker pool draining the dispatched list:
each WorkItem is handled by `run` exactly once (counters updated under the
lock, then the report is emitted into the result stream).  Returns the
final counters and the emitted reports. -/
def processAll (parts : List String) (exec : ExecOracle) :
    List String → Counters → Counters × List ExecReport
  | [], c => (c, [])
  | p :: ps, c =>
    let r := runCmd parts exec p
    let rest := processAll parts exec ps (tally c r.failed)
    (rest.1, r :: rest.2)

/-- One `filepath.Walk` callback invocation: the path argument, whether the
entry's `FileInfo` says it is a directory, and the walk error argument
(`some` when the entry, or the root itself, could not be accessed, in which
case the `FileInfo` would be nil). -/
structure WalkEntry where
  path : String
  isDir : Bool
  errMsg : Option String
deriving Repr, DecidableEq

/-- The walk callback body of `main`, folded over all callback invocations:
`if matcher.MatchString(path) { if _, found := files[path]; !found { ... input <- path } }`.
`seen` is the `files` set.  The callback reads neither `info` nor `err` and
always returns nil, so `isDir` and `errMsg` are ignored and no entry aborts
the walk. -/
def dispatchList (matchStr : String → Bool) :
    List WalkEntry → List String → List String
  | [], _ => []
  | e :: es, seen =>
    if matchStr e.path && !(seen.contains e.path) then
      e.path :: dispatchList matchStr es (e.path :: seen)
    else
      dispatchList matchStr es seen

/-- Whitespace class of Go's `unicode.IsSpace` restricted to Latin-1, the
characters `strings.TrimSpace` strips (code points of Unicode category Z
above U+00A0 are not modelled). -/
def goUnicodeWs (c : Char) : Bool :=
  c = ' ' || c = '\t' || c = '\n' || c = '\x0b' || c = '\x0c' || c = '\r' ||
    c = '\x85' || c = '\xa0'

/-- Embedding of `strings.TrimSpace`: drop leading and trailing whitespace. -/
def trimSpace (s : String) : String :=
  ⟨((s.data.dropWhile goUnicodeWs).reverse.dropWhile goUnicodeWs).reverse⟩

/-- The printer's receive case:
`if output = strings.TrimSpace(output); output != "" { fmt.Printf("\n%s\n\n", output) }`.
Returns what is written to stdout for one received report, `none` when the
report is suppressed. -/
def printerStep (s : String) : Option String :=
  let t := trimSpace s
  if t = "" then none else some ("\n" ++ t ++ "\n\n")

/-- The configuration read from the flags the pipeline consults. -/
structure Config where
  root : String
  command : String
  pattern : String
deriving Repr, DecidableEq

/-- Observable outcome of one run of `main`: an `os.Exit` before any
dispatching, or completion with the dispatched WorkItems, the final
counters, the emitted reports and the process exit status. -/
inductive MainOutcome where
  | exitEarly (code : Nat)
  | done (dispatched : List String) (counters : Counters)
      (reports : List ExecReport) (code : Nat)
deriving Repr, DecidableEq

/-- Embedding of `main`: exit 1 if `*command == ""`; split the command; exit 1 if the
pattern does not compile; walk the tree dispatching matching unseen paths;
drain all work; exit 1 if `fail > 0`, otherwise fall off `main` (exit 0).
`compile` stands for `regexp.Compile`, `entries` for the sequence of walk
callback invocations, `exec` for the OS. -/
def mainRun (cfg : Config) (compile : String → Option (String → Bool))
    (exec : ExecOracle) (entries : List WalkEntry) : MainOutcome :=
  if cfg.command = "" then .exitEarly 1
  else
    let parts := splitWs cfg.command
    match compile cfg.pattern with
    | none => .exitEarly 1
    | some matcher =>
      let dispatched := dispatchList matcher entries []
      let res := processAll parts exec dispatched ⟨0, 0⟩
      .done dispatched res.1 res.2 (if res.1.fail > 0 then 1 else 0)

/-- Observable synchronisation events of the pipeline, used to state when
the outstanding-work counter (the `sync.WaitGroup`) moves relative to the
life of one WorkItem. -/
inductive Ev where
  | wgAdd (p : String)
  | enq (p : String)
  | deq (p : String)
  | runExec (p : String)
  | countEv (p : String)
  | wgDone (p : String)
  | emit (p : String)
deriving Repr, DecidableEq

/-- Events of dispatching one WorkItem in `main`'s walk callback:
`wg.Add(1)` strictly before `input <- path`. -/
def dispatchEvents (p : String) : List Ev :=
  [.wgAdd p, .enq p]

/-- Events of one WorkItem's life inside a worker, in source order:
`worker` receives the path from `input`; `run` invokes `CombinedOutput`,
updates the counters under `resultMtx`, then returns, firing `defer wg.Done()`;
only then does `worker` execute `output <- run(filename, wg)`'s send. -/
def itemEvents (p : String) : List Ev :=
  [.deq p, .runExec p, .countEv p, .wgDone p, .emit p]

/-- A sequential trace of a whole run over the dispatched WorkItems:
every dispatch (Add then enqueue) precedes the item's processing events,
as the channel send/receive pair forces in the source. -/
def runTrace (dispatched : List String) : List Ev :=
  (dispatched.map dispatchEvents).flatten ++ (dispatched.map itemEvents).flatten

/-- Is this event a `wg.Add(1)`? -/
def isAdd : Ev → Bool
  | .wgAdd _ => true
  | _ => false

/-- Is this event a `wg.Done()`? -/
def isDone : Ev → Bool
  | .wgDone _ => true
  | _ => false

/-- Is this event a send of a WorkItem into the `input` channel? -/
def isEnqEv : Ev → Bool
  | .enq _ => true
  | _ => false

/-- Is this event a receive of a WorkItem from the `input` channel? -/
def isDeqEv : Ev → Bool
  | .deq _ => true
  | _ => false

/-- Value of the outstanding-work counter after a trace prefix. -/
def wgValue (t : List Ev) : Int :=
  (t.countP isAdd : Int) - (t.countP isDone : Int)

/-- Number of WorkItems sitting in the `input` channel after a trace
prefix: enqueued but not yet received by a worker. -/
def queueLen (t : List Ev) : Nat :=
  t.countP isEnqEv - t.countP isDeqEv

/-- Number of workers between their receive and their `run` returning
(command still executing or counters being updated) after a trace prefix. -/
def midRun (t : List Ev) : Nat :=
  t.countP isDeqEv - t.countP isDone

/-- The ordering discipline the claim attributes to the counter: every
decrement of a WorkItem happens only after that WorkItem's report has been
emitted into the result stream. -/
def doneAfterEmit (t : List Ev) : Prop :=
  ∀ (p : String) (i : Nat), t[i]? = some (Ev.wgDone p) → ∃ j, j < i ∧ t[j]? = some (Ev.emit p)

theorem processAll_snd (parts : List String) (exec : ExecOracle) :
    ∀ (ps : List String) (c : Counters),
      (processAll parts exec ps c).2 = ps.map (runCmd parts exec) := by
  intro ps
  induction ps with
  | nil => intro c; simp [processAll]
  | cons p ps ih => intro c; simp [processAll, ih]

theorem processAll_fail (parts : List String) (exec : ExecOracle) :
    ∀ (ps : List String) (c : Counters),
      (processAll parts exec ps c).1.fail =
        c.fail + ps.countP (fun p => (runCmd parts exec p).failed) := by
  intro ps
  induction ps with
  | nil => intro c; simp [processAll]
  | cons p ps ih =>
    intro c
    simp only [processAll, ih, List.countP_cons, tally]
    by_cases h : (runCmd parts exec p).failed
    · simp [h]
      omega
    · simp [h]

theorem processAll_success (parts : List String) (exec : ExecOracle) :
    ∀ (ps : List String) (c : Counters),
      (processAll parts exec ps c).1.success =
        c.success + ps.countP (fun p => !(runCmd parts exec p).failed) := by
  intro ps
  induction ps with
  | nil => intro c; simp [processAll]
  | cons p ps ih =>
    intro c
    simp only [processAll, ih, List.countP_cons, tally]
    by_cases h : (runCmd parts exec p).failed
    · simp [h]
    · simp [h]
      omega

theorem processAll_sum (parts : List String) (exec : ExecOracle)
    (ps : List String) (c : Counters) :
    (processAll parts exec ps c).1.success + (processAll parts exec ps c).1.fail =
      c.success + c.fail + ps.length := by
  rw [processAll_success, processAll_fail]
  have h := List.length_eq_countP_add_countP (fun p => (runCmd parts exec p).failed) ps
  simp only [decide_not, Bool.decide_eq_true] at h
  omega

theorem dispatchList_not_mem_seen (m : String → Bool) :
    ∀ (es : List WalkEntry) (seen : List String) (p : String),
      p ∈ dispatchList m es seen → ¬ p ∈ seen := by
  intro es
  induction es with
  | nil => intro seen p h; simp [dispatchList] at h
  | cons e es ih =>
    intro seen p h
    simp only [dispatchList] at h
    by_cases hc : (m e.path && !(seen.contains e.path)) = true
    · rw [if_pos hc] at h
      rcases List.mem_cons.mp h with rfl | h
      · simp at hc
        exact fun hmem => hc.2 hmem
      · intro hmem
        exact ih (e.path :: seen) p h (List.mem_cons_of_mem _ hmem)
    · rw [if_neg hc] at h
      exact ih seen p h

theorem dispatchList_nodup (m : String → Bool) :
    ∀ (es : List WalkEntry) (seen : List String),
      (dispatchList m es seen).Nodup := by
  intro es
  induction es with
  | nil => intro seen; simp [dispatchList]
  | cons e es ih =>
    intro seen
    simp only [dispatchList]
    by_cases hc : (m e.path && !(seen.contains e.path)) = true
    · rw [if_pos hc]
      refine List.nodup_cons.mpr ⟨fun hmem => ?_, ih _⟩
      exact dispatchList_not_mem_seen m es (e.path :: seen) e.path hmem
        (List.mem_cons_self _ _)
    · rw [if_neg hc]; exact ih _

theorem dispatchList_mem (m : String → Bool) :
    ∀ (es : List WalkEntry) (seen : List String) (p : String),
      p ∈ dispatchList m es seen → m p = true ∧ ∃ e ∈ es, e.path = p := by
  intro es
  induction es with
  | nil => intro seen p h; simp [dispatchList] at h
  | cons e es ih =>
    intro seen p h
    simp only [dispatchList] at h
    by_cases hc : (m e.path && !(seen.contains e.path)) = true
    · rw [if_pos hc] at h
      rcases List.mem_cons.mp h with rfl | h
      · exact ⟨(Bool.and_eq_true ..).mp hc |>.1, e, List.mem_cons_self _ _, rfl⟩
      · obtain ⟨hm, e', he', hp⟩ := ih _ p h
        exact ⟨hm, e', List.mem_cons_of_mem _ he', hp⟩
    · rw [if_neg hc] at h
      obtain ⟨hm, e', he', hp⟩ := ih _ p h
      exact ⟨hm, e', List.mem_cons_of_mem _ he', hp⟩

theorem dispatchList_map_path (m : String → Bool) (g : WalkEntry → WalkEntry)
    (hg : ∀ e, (g e).path = e.path) :
    ∀ (es : List WalkEntry) (seen : List String),
      dispatchList m (es.map g) seen = dispatchList m es seen := by
  intro es
  induction es with
  | nil => intro seen; simp [dispatchList]
  | cons e es ih =>
    intro seen
    simp only [List.map_cons, dispatchList, hg]
    by_cases hc : (m e.path && !(seen.contains e.path)) = true
    · rw [if_pos hc, if_pos hc, ih]
    · rw [if_neg hc, if_neg hc, ih]

theorem splitWs_head_of_ws (s : String) (c : Char) (cs : List Char)
    (hdata : s.data = c :: cs) (hws : goWs c = true) (d : String) :
    (splitWs s).headD d = "" := by
  rw [splitWs, hdata, splitWsAux, if_pos hws]
  rfl

theorem mainRun_done_eq (cfg : Config)
    (compile : String → Option (String → Bool)) (exec : ExecOracle)
    (entries : List WalkEntry) (m : String → Bool)
    (hcmd : cfg.command ≠ "") (hcomp : compile cfg.pattern = some m) :
    mainRun cfg compile exec entries =
      .done (dispatchList m entries [])
        (processAll (splitWs cfg.command) exec
          (dispatchList m entries []) ⟨0, 0⟩).1
        (processAll (splitWs cfg.command) exec
          (dispatchList m entries []) ⟨0, 0⟩).2
        (if 0 < (processAll (splitWs cfg.command) exec
            (dispatchList m entries []) ⟨0, 0⟩).1.fail then 1 else 0) := by
  unfold mainRun
  rw [if_neg hcmd, hcomp]

theorem dispatchPart_countP_isAdd (d : List String) :
    ((d.map dispatchEvents).flatten).countP isAdd = d.length := by
  induction d with
  | nil => simp
  | cons p d ih =>
    simp [dispatchEvents, List.countP_append, List.countP_cons, isAdd, ih]

theorem dispatchPart_countP_isDone (d : List String) :
    ((d.map dispatchEvents).flatten).countP isDone = 0 := by
  induction d with
  | nil => simp
  | cons p d ih =>
    simp [dispatchEvents, List.countP_append, List.countP_cons, isDone, ih]

theorem itemPart_countP_isAdd (d : List String) :
    ((d.map itemEvents).flatten).countP isAdd = 0 := by
  induction d with
  | nil => simp
  | cons p d ih =>
    simp [itemEvents, List.countP_append, List.countP_cons, isAdd, ih]

theorem itemPart_countP_isDone (d : List String) :
    ((d.map itemEvents).flatten).countP isDone = d.length := by
  induction d with
  | nil => simp
  | cons p d ih =>
    simp [itemEvents, List.countP_append, List.countP_cons, isDone, ih]

theorem dispatchPart_countP_isEnq (d : List String) :
    ((d.map dispatchEvents).flatten).countP isEnqEv = d.length := by
  induction d with
  | nil => simp
  | cons p d ih =>
    simp [dispatchEvents, List.countP_append, List.countP_cons, isEnqEv, ih]

theorem dispatchPart_countP_isDeq (d : List String) :
    ((d.map dispatchEvents).flatten).countP isDeqEv = 0 := by
  induction d with
  | nil => simp
  | cons p d ih =>
    simp [dispatchEvents, List.countP_append, List.countP_cons, isDeqEv, ih]

theorem itemPart_countP_isEnq (d : List String) :
    ((d.map itemEvents).flatten).countP isEnqEv = 0 := by
  induction d with
  | nil => simp
  | cons p d ih =>
    simp [itemEvents, List.countP_append, List.countP_cons, isEnqEv, ih]

theorem itemPart_countP_isDeq (d : List String) :
    ((d.map itemEvents).flatten).countP isDeqEv = d.length := by
  induction d with
  | nil => simp
  | cons p d ih =>
    simp [itemEvents, List.countP_append, List.countP_cons, isDeqEv, ih]

theorem isPrefix_cons_elim {α : Type} {t : List α} {x : α} {ys : List α}
    (h : List.IsPrefix t (x :: ys)) :
    t = [] ∨ ∃ t', t = x :: t' ∧ List.IsPrefix t' ys := by
  obtain ⟨r, hr⟩ := h
  cases t with
  | nil => exact Or.inl rfl
  | cons e t' =>
    rw [List.cons_append] at hr
    injection hr with h1 h2
    exact Or.inr ⟨t', by rw [h1], ⟨r, h2⟩⟩

theorem dispatch_isPrefix_enq_le_add :
    ∀ (d : List String) (t : List Ev),
      List.IsPrefix t ((d.map dispatchEvents).flatten) →
      t.countP isEnqEv ≤ t.countP isAdd := by
  intro d
  induction d with
  | nil =>
    intro t ht
    obtain ⟨r, hr⟩ := ht
    obtain ⟨rfl, -⟩ := List.append_eq_nil.mp hr
    simp
  | cons p d' ih =>
    intro t ht
    simp only [List.map_cons, List.flatten_cons, dispatchEvents,
      List.cons_append, List.nil_append] at ht
    rcases isPrefix_cons_elim ht with rfl | ⟨t₁, rfl, ht₁⟩
    · simp
    rcases isPrefix_cons_elim ht₁ with rfl | ⟨t₂, rfl, ht₂⟩
    · simp [List.countP_cons, isEnqEv, isAdd]
    have hrec := ih t₂ ht₂
    simp only [List.countP_cons, isEnqEv, isAdd]
    omega

theorem item_isPrefix_done_le_deq :
    ∀ (d : List String) (t : List Ev),
      List.IsPrefix t ((d.map itemEvents).flatten) →
      t.countP isDone ≤ t.countP isDeqEv := by
  intro d
  induction d with
  | nil =>
    intro t ht
    obtain ⟨r, hr⟩ := ht
    obtain ⟨rfl, -⟩ := List.append_eq_nil.mp hr
    simp
  | cons p d' ih =>
    intro t ht
    simp only [List.map_cons, List.flatten_cons, itemEvents,
      List.cons_append, List.nil_append] at ht
    rcases isPrefix_cons_elim ht with rfl | ⟨t₁, rfl, ht₁⟩
    · simp
    rcases isPrefix_cons_elim ht₁ with rfl | ⟨t₂, rfl, ht₂⟩
    · simp [List.countP_cons, isDone, isDeqEv]
    rcases isPrefix_cons_elim ht₂ with rfl | ⟨t₃, rfl, ht₃⟩
    · simp [List.countP_cons, isDone, isDeqEv]
    rcases isPrefix_cons_elim ht₃ with rfl | ⟨t₄, rfl, ht₄⟩
    · simp [List.countP_cons, isDone, isDeqEv]
    rcases isPrefix_cons_elim ht₄ with rfl | ⟨t₅, rfl, ht₅⟩
    · simp [List.countP_cons, isDone, isDeqEv]
    have hrec := ih t₅ ht₅
    simp only [List.countP_cons, isDone, isDeqEv]
    omega

theorem runTrace_prefix_nonneg (d : List String) (t₁ t₂ : List Ev)
    (h : runTrace d = t₁ ++ t₂) : 0 ≤ wgValue t₁ := by
  unfold runTrace at h
  rcases List.append_eq_append_iff.mp h with ⟨a, ha, hb⟩ | ⟨a, ha, _⟩
  · -- the prefix covers all dispatches plus part of the processing
    have hsub : a.Sublist ((d.map itemEvents).flatten) :=
      List.IsPrefix.sublist ⟨t₂, hb.symm⟩
    have hdone : a.countP isDone ≤ d.length := by
      have := List.Sublist.countP_le isDone hsub
      rw [itemPart_countP_isDone] at this
      exact this
    have h1 : t₁.countP isAdd =
        ((d.map dispatchEvents).flatten).countP isAdd + a.countP isAdd := by
      rw [ha, List.countP_append]
    have h2 : t₁.countP isDone =
        ((d.map dispatchEvents).flatten).countP isDone + a.countP isDone := by
      rw [ha, List.countP_append]
    rw [dispatchPart_countP_isAdd] at h1
    rw [dispatchPart_countP_isDone] at h2
    unfold wgValue
    omega
  · -- the prefix ends inside the dispatch part: no Done events have happened
    have hsub : t₁.Sublist ((d.map dispatchEvents).flatten) :=
      List.IsPrefix.sublist ⟨a, ha.symm⟩
    have hdone : t₁.countP isDone ≤ 0 := by
      have := List.Sublist.countP_le isDone hsub
      rw [dispatchPart_countP_isDone] at this
      exact this
    unfold wgValue
    omega

theorem runTrace_countP_isAdd (d : List String) :
    (runTrace d).countP isAdd = d.length := by
  unfold runTrace
  rw [List.countP_append, dispatchPart_countP_isAdd, itemPart_countP_isAdd]
  omega

theorem runTrace_countP_isDone (d : List String) :
    (runTrace d).countP isDone = d.length := by
  unfold runTrace
  rw [List.countP_append, dispatchPart_countP_isDone, itemPart_countP_isDone]
  omega

theorem runTrace_zero_drained (d : List String) (t₁ t₂ : List Ev)
    (h : runTrace d = t₁ ++ t₂) (hz : wgValue t₁ = 0) :
    t₁.countP isEnqEv = t₁.countP isDeqEv ∧
    t₁.countP isDeqEv = t₁.countP isDone := by
  unfold runTrace at h
  have hz' : t₁.countP isAdd = t₁.countP isDone := by
    unfold wgValue at hz
    omega
  rcases List.append_eq_append_iff.mp h with ⟨a, ha, hb⟩ | ⟨a, ha, _⟩
  · -- the prefix covers all dispatches plus part of the processing
    have haP : List.IsPrefix a ((d.map itemEvents).flatten) := ⟨t₂, hb.symm⟩
    have hsub : a.Sublist ((d.map itemEvents).flatten) := haP.sublist
    have hAdd0 : a.countP isAdd = 0 := by
      have := List.Sublist.countP_le isAdd hsub
      rw [itemPart_countP_isAdd] at this
      omega
    have hEnq0 : a.countP isEnqEv = 0 := by
      have := List.Sublist.countP_le isEnqEv hsub
      rw [itemPart_countP_isEnq] at this
      omega
    have hDeqLe : a.countP isDeqEv ≤ d.length := by
      have := List.Sublist.countP_le isDeqEv hsub
      rw [itemPart_countP_isDeq] at this
      exact this
    have hDoneDeq : a.countP isDone ≤ a.countP isDeqEv :=
      item_isPrefix_done_le_deq d a haP
    have e1 : t₁.countP isAdd = d.length + a.countP isAdd := by
      rw [ha, List.countP_append, dispatchPart_countP_isAdd]
    have e2 : t₁.countP isDone = 0 + a.countP isDone := by
      rw [ha, List.countP_append, dispatchPart_countP_isDone]
    have e3 : t₁.countP isEnqEv = d.length + a.countP isEnqEv := by
      rw [ha, List.countP_append, dispatchPart_countP_isEnq]
    have e4 : t₁.countP isDeqEv = 0 + a.countP isDeqEv := by
      rw [ha, List.countP_append, dispatchPart_countP_isDeq]
    omega
  · -- the prefix ends inside the dispatch part
    have htP : List.IsPrefix t₁ ((d.map dispatchEvents).flatten) :=
      ⟨a, ha.symm⟩
    have hsub := htP.sublist
    have hDone0 : t₁.countP isDone = 0 := by
      have := List.Sublist.countP_le isDone hsub
      rw [dispatchPart_countP_isDone] at this
      omega
    have hDeq0 : t₁.countP isDeqEv = 0 := by
      have := List.Sublist.countP_le isDeqEv hsub
      rw [dispatchPart_countP_isDeq] at this
      omega
    have hEnqLe : t₁.countP isEnqEv ≤ t₁.countP isAdd :=
      dispatch_isPrefix_enq_le_add d t₁ htP
    omega

theorem mainRun_done_inv (cfg : Config)
    (compile : String → Option (String → Bool)) (exec : ExecOracle)
    (entries : List WalkEntry) (d : List String) (c : Counters)
    (rs : List ExecReport) (code : Nat)
    (h : mainRun cfg compile exec entries = .done d c rs code) :
    ∃ m, cfg.command ≠ "" ∧ compile cfg.pattern = some m ∧
      d = dispatchList m entries [] ∧
      c = (processAll (splitWs cfg.command) exec d ⟨0, 0⟩).1 ∧
      rs = (processAll (splitWs cfg.command) exec d ⟨0, 0⟩).2 ∧
      code = (if 0 < c.fail then 1 else 0) := by
  unfold mainRun at h
  by_cases hcmd : cfg.command = ""
  · rw [if_pos hcmd] at h
    exact absurd h (by simp)
  · rw [if_neg hcmd] at h
    cases hcomp : compile cfg.pattern with
    | none => rw [hcomp] at h; exact absurd h (by simp)
    | some m =>
      rw [hcomp] at h
      simp only [MainOutcome.done.injEq] at h
      obtain ⟨h1, h2, h3, h4⟩ := h
      subst h1
      exact ⟨m, hcmd, rfl, rfl, h2.symm, h3.symm, by rw [← h4, h2]⟩

/-- C1: the process exit status is 0 if and only if the failure counter is 0
at completion: every run that reaches Done exits 1 exactly when at least one
invoked command failed, and exits 1 early when no command is specified or the
pattern fails to compile. -/
theorem exit_status_spec (cfg : Config)
    (compile : String → Option (String → Bool)) (exec : ExecOracle)
    (entries : List WalkEntry) :
    (cfg.command = "" → mainRun cfg compile exec entries = .exitEarly 1) ∧
    (cfg.command ≠ "" → compile cfg.pattern = none →
      mainRun cfg compile exec entries = .exitEarly 1) ∧
    (∀ (d : List String) (c : Counters) (rs : List ExecReport) (code : Nat),
      mainRun cfg compile exec entries = .done d c rs code →
        (code = 0 ↔ c.fail = 0) ∧ (code = 1 ↔ ∃ r ∈ rs, r.failed = true)) := by
  refine ⟨fun h => by simp [mainRun, h], fun h hc => by simp [mainRun, h, hc],
    fun d c rs code h => ?_⟩
  obtain ⟨m, hcmd, hcomp, hd, hc, hrs, hcode⟩ :=
    mainRun_done_inv cfg compile exec entries d c rs code h
  constructor
  · rw [hcode]
    by_cases hf : 0 < c.fail
    · rw [if_pos hf]
      constructor
      · intro h10; omega
      · intro h0; omega
    · rw [if_neg hf]
      constructor
      · intro _; omega
      · intro _; rfl
  · have hfail : c.fail =
        d.countP (fun p => (runCmd (splitWs cfg.command) exec p).failed) := by
      rw [hc, processAll_fail]
      simp
    have hmem : (∃ r ∈ rs, r.failed = true) ↔
        0 < d.countP (fun p => (runCmd (splitWs cfg.command) exec p).failed) := by
      rw [hrs, processAll_snd, List.countP_pos_iff]
      constructor
      · rintro ⟨r, hr, hrf⟩
        obtain ⟨p, hp, rfl⟩ := List.mem_map.mp hr
        exact ⟨p, hp, hrf⟩
      · rintro ⟨p, hp, hpf⟩
        exact ⟨runCmd (splitWs cfg.command) exec p, List.mem_map_of_mem _ hp, hpf⟩
    rw [hcode, hmem, ← hfail]
    by_cases hf : 0 < c.fail
    · rw [if_pos hf]
      exact ⟨fun _ => hf, fun _ => rfl⟩
    · rw [if_neg hf]
      constructor
      · intro h01; omega
      · intro hp; exact absurd hp hf

/-- Concrete instantiation of C1: an empty command exits 1 immediately, and a
completed run with one succeeding command has exit status 0 iff no failure
was counted. -/
theorem exit_status_spec_witness :
    (mainRun ⟨".", "", "p"⟩ (fun _ => none) (fun _ _ => ⟨"", true, ""⟩) [] =
      .exitEarly 1) ∧
    ((0 : Nat) = 0 ↔ (Counters.mk 1 0).fail = 0) :=
  ⟨(exit_status_spec ⟨".", "", "p"⟩ (fun _ => none)
      (fun _ _ => ⟨"", true, ""⟩) []).1 rfl,
   ((exit_status_spec ⟨".", "ok", "p"⟩ (fun _ => some fun _ => true)
      (fun _ _ => ⟨"out", true, "1s"⟩) [⟨"a", false, none⟩]).2.2
      ["a"] ⟨1, 0⟩ [⟨["ok", "a"], "out", "1s", false⟩] 0 (by decide)).1⟩

/-- C2: once draining completes, the success counter plus the failure counter
equals the number of dispatched WorkItems, and exactly one report was emitted
per WorkItem (each item bumps exactly one counter, exactly once). -/
theorem counters_sum_spec (cfg : Config)
    (compile : String → Option (String → Bool)) (exec : ExecOracle)
    (entries : List WalkEntry) (d : List String) (c : Counters)
    (rs : List ExecReport) (code : Nat)
    (h : mainRun cfg compile exec entries = .done d c rs code) :
    c.success + c.fail = d.length ∧ rs.length = d.length := by
  obtain ⟨m, hcmd, hcomp, hd, hc, hrs, hcode⟩ :=
    mainRun_done_inv cfg compile exec entries d c rs code h
  constructor
  · rw [hc]
    have := processAll_sum (splitWs cfg.command) exec d ⟨0, 0⟩
    simpa using this
  · rw [hrs, processAll_snd, List.length_map]

/-- Concrete instantiation of C2: one dispatched item, counters sum to 1. -/
theorem counters_sum_spec_witness :
    (Counters.mk 1 0).success + (Counters.mk 1 0).fail =
      (["a"] : List String).length ∧
    ([(⟨["ok", "a"], "out", "1s", false⟩ : ExecReport)]).length =
      (["a"] : List String).length :=
  counters_sum_spec ⟨".", "ok", "p"⟩ (fun _ => some fun _ => true)
    (fun _ _ => ⟨"out", true, "1s"⟩) [⟨"a", false, none⟩]
    ["a"] ⟨1, 0⟩ [⟨["ok", "a"], "out", "1s", false⟩] 0 (by decide)

/-- C3: no WorkItem is dispatched more than once: whatever path sequence the
traversal yields (duplicates included), the dispatched list contains each
path at most once. -/
theorem dispatch_nodup (m : String → Bool) (entries : List WalkEntry) :
    (dispatchList m entries []).Nodup ∧
    ∀ p : String, (dispatchList m entries []).count p ≤ 1 :=
  ⟨dispatchList_nodup m entries [],
   fun p => List.nodup_iff_count_le_one.mp (dispatchList_nodup m entries []) p⟩

/-- C4 as stated is false at a concrete one-item run: `defer wg.Done()`
fires when `run` returns, which is before `worker` executes the send
`output <- run(filename, wg)`, so the counter decrement is not preceded by
the emission of that item's report into the result stream. -/
theorem wg_done_before_emit_cex : ¬ doneAfterEmit (runTrace ["f"]) := by
  intro h
  obtain ⟨j, hj, hget⟩ := h "f" 5 (by rfl)
  interval_cases j <;>
    simp [runTrace, dispatchEvents, itemEvents] at hget

/-- C4 amended: the outstanding-work counter is incremented exactly once per
WorkItem enqueued and decremented exactly once per WorkItem when `run`
returns — after the command has executed and the counters were updated, but
before the report is sent into the result stream; the counter never goes
negative, and whenever it reaches zero the queue is empty (everything
enqueued has been received) and no worker is mid-execution (every received
item's `run` has returned), though an already-decremented item's report may
still be in flight to the result stream. -/
theorem outstanding_counter_amended (d : List String) (p : String) :
    (runTrace d).countP isAdd = d.length ∧
    (runTrace d).countP isDone = d.length ∧
    wgValue (runTrace d) = 0 ∧
    (∀ t₁ t₂, runTrace d = t₁ ++ t₂ → 0 ≤ wgValue t₁) ∧
    (∀ t₁ t₂, runTrace d = t₁ ++ t₂ → wgValue t₁ = 0 →
      queueLen t₁ = 0 ∧ midRun t₁ = 0 ∧
      t₁.countP isEnqEv = t₁.countP isDeqEv ∧
      t₁.countP isDeqEv = t₁.countP isDone) ∧
    (itemEvents p)[2]? = some (.countEv p) ∧
    (itemEvents p)[3]? = some (.wgDone p) ∧
    (itemEvents p)[4]? = some (.emit p) := by
  refine ⟨runTrace_countP_isAdd d, runTrace_countP_isDone d, ?_,
    runTrace_prefix_nonneg d, ?_, rfl, rfl, rfl⟩
  · unfold wgValue
    rw [runTrace_countP_isAdd, runTrace_countP_isDone]
    omega
  · intro t₁ t₂ h hz
    obtain ⟨h1, h2⟩ := runTrace_zero_drained d t₁ t₂ h hz
    unfold queueLen midRun
    omega

/-- Concrete instantiation of C4 amended: the empty prefix of a one-item
trace has a non-negative counter; at the end of the trace the counter is
zero with the queue empty and no worker mid-execution; and the decrement
sits at index 3 of the item's event list, before the emission at index 4. -/
theorem outstanding_counter_amended_witness :
    0 ≤ wgValue [] ∧
    (queueLen (runTrace ["f"]) = 0 ∧ midRun (runTrace ["f"]) = 0 ∧
      (runTrace ["f"]).countP isEnqEv = (runTrace ["f"]).countP isDeqEv ∧
      (runTrace ["f"]).countP isDeqEv = (runTrace ["f"]).countP isDone) ∧
    (itemEvents "f")[3]? = some (Ev.wgDone "f") ∧
    (itemEvents "f")[4]? = some (Ev.emit "f") :=
  ⟨(outstanding_counter_amended ["f"] "f").2.2.2.1 [] (runTrace ["f"]) rfl,
   (outstanding_counter_amended ["f"] "f").2.2.2.2.1 (runTrace ["f"]) []
     (List.append_nil _).symm (by decide),
   (outstanding_counter_amended ["f"] "f").2.2.2.2.2.2.1,
   (outstanding_counter_amended ["f"] "f").2.2.2.2.2.2.2⟩

/-- C5 as stated is false at a concrete input: when the command cannot be
launched, `CombinedOutput` hands back an empty buffer with the error only in
`err`, and `run` embeds `string(out)` in the report, so the report's output
field is empty and does not contain the launch error description. -/
theorem launch_error_not_in_output_cex :
    (runCmd ["/nonexistent"] (fun _ _ => ⟨"", false, "21µs"⟩)
      "aTest.php").failed = true ∧
    (runCmd ["/nonexistent"] (fun _ _ => ⟨"", false, "21µs"⟩)
      "aTest.php").output = "" ∧
    ¬ List.IsInfix ("no such file or directory".data)
      ((runCmd ["/nonexistent"] (fun _ _ => ⟨"", false, "21µs"⟩)
        "aTest.php").output.data) := by
  refine ⟨rfl, rfl, ?_⟩
  rintro ⟨s, t, hst⟩
  have hst' : s ++ "no such file or directory".data ++ t = ([] : List Char) :=
    hst
  have hlen := congrArg List.length hst'
  simp [List.length_append] at hlen

/-- C5 amended: a launch failure is recorded as a failed outcome and never
escapes the Executor (every queued WorkItem still yields exactly one
report), but the report's output field holds only the captured combined
output — on a launch failure the empty buffer — not the error description. -/
theorem launch_failure_amended (parts : List String) (exec : ExecOracle)
    (path : String)
    (hfail : (exec (parts.headD "") (parts ++ [path])).ok = false) :
    (runCmd parts exec path).failed = true ∧
    (runCmd parts exec path).output =
      (exec (parts.headD "") (parts ++ [path])).out ∧
    ∀ (ps : List String) (c : Counters),
      (processAll parts exec ps c).2.length = ps.length := by
  refine ⟨?_, rfl, fun ps c => by rw [processAll_snd, List.length_map]⟩
  show (!(exec (parts.headD "") (parts ++ [path])).ok) = true
  rw [hfail]
  rfl

/-- Concrete instantiation of C5 amended at a launch-failure oracle. -/
theorem launch_failure_amended_witness :
    (runCmd ["x"] (fun _ _ => ⟨"", false, "0s"⟩) "f").failed = true ∧
    (runCmd ["x"] (fun _ _ => ⟨"", false, "0s"⟩) "f").output = "" ∧
    ∀ (ps : List String) (c : Counters),
      (processAll ["x"] (fun _ _ => ⟨"", false, "0s"⟩) ps c).2.length =
        ps.length :=
  launch_failure_amended ["x"] (fun _ _ => ⟨"", false, "0s"⟩) "f" rfl

/-- C6 as stated is false at a concrete input: the walk callback ignores its
error argument, so an inaccessible root does not terminate the process; the
run completes with nothing dispatched and exit status 0. -/
theorem root_inaccessible_cex :
    mainRun ⟨"/bad", "/bin/true", "Test.php$"⟩
      (fun _ => some (fun _ => false))
      (fun _ _ => ⟨"", false, "0s"⟩)
      [⟨"/bad", false, some "lstat /bad: permission denied"⟩] =
      .done [] ⟨0, 0⟩ [] 0 := by
  decide

/-- C6 amended: the only fatal pre-dispatch failures are an empty command
string and a non-compiling pattern, both exiting with status 1; traversal
errors — the root's included — are ignored by the walk callback, which
dispatches identically whether or not entries carry errors, so no traversal
error aborts the walk. -/
theorem fatal_only_config_amended (cfg : Config)
    (compile : String → Option (String → Bool)) (exec : ExecOracle)
    (entries : List WalkEntry) (c : Nat)
    (h : mainRun cfg compile exec entries = .exitEarly c) :
    c = 1 ∧ (cfg.command = "" ∨ compile cfg.pattern = none) ∧
    ∀ (m : String → Bool) (es : List WalkEntry) (seen : List String),
      dispatchList m (es.map fun e => { e with errMsg := none }) seen =
        dispatchList m es seen := by
  unfold mainRun at h
  by_cases hcmd : cfg.command = ""
  · rw [if_pos hcmd] at h
    simp only [MainOutcome.exitEarly.injEq] at h
    exact ⟨h.symm, Or.inl hcmd, fun m es seen =>
      dispatchList_map_path m (fun e => { e with errMsg := none })
        (fun e => rfl) es seen⟩
  · rw [if_neg hcmd] at h
    cases hcomp : compile cfg.pattern with
    | none =>
      rw [hcomp] at h
      simp only [MainOutcome.exitEarly.injEq] at h
      exact ⟨h.symm, Or.inr rfl, fun m es seen =>
        dispatchList_map_path m (fun e => { e with errMsg := none })
          (fun e => rfl) es seen⟩
    | some mm =>
      rw [hcomp] at h
      exact absurd h (by simp)

/-- Concrete instantiation of C6 amended: the empty command exits with 1. -/
theorem fatal_only_config_amended_witness :
    (1 : Nat) = 1 ∧
      ("" = "" ∨ (some fun (_ : String) => true) =
        (none : Option (String → Bool))) :=
  ⟨(fatal_only_config_amended ⟨".", "", "p"⟩ (fun _ => some fun _ => true)
      (fun _ _ => ⟨"", true, ""⟩) [] 1 (by decide)).1,
   (fatal_only_config_amended ⟨".", "", "p"⟩ (fun _ => some fun _ => true)
      (fun _ _ => ⟨"", true, ""⟩) [] 1 (by decide)).2.1⟩

/-- C7: the Executor invokes the executable with argv equal to the fixed
command parts followed by the path as the final argument, and the report
carries exactly that command line, the captured combined output and the
elapsed-time rendering of this invocation. -/
theorem executor_report_spec (parts : List String) (exec : ExecOracle)
    (path : String) :
    (runCmd parts exec path).cmdline = parts ++ [path] ∧
    (runCmd parts exec path).cmdline.getLast? = some path ∧
    (runCmd parts exec path).output =
      (exec (parts.headD "") (parts ++ [path])).out ∧
    (runCmd parts exec path).elapsedStr =
      (exec (parts.headD "") (parts ++ [path])).elapsed ∧
    formatReport (runCmd parts exec path) =
      "Running " ++ String.intercalate " " (parts ++ [path]) ++ "\n\n" ++
        (exec (parts.headD "") (parts ++ [path])).out ++ "\n\nElapsed: " ++
        (exec (parts.headD "") (parts ++ [path])).elapsed ++ "\n" := by
  refine ⟨rfl, ?_, rfl, rfl, rfl⟩
  show (parts ++ [path]).getLast? = some path
  rw [List.getLast?_concat]

/-- C8: every received report is written to standard output with leading
and trailing whitespace trimmed, and a report that is entirely empty after
trimming produces no output at all. -/
theorem printer_trim_spec (s : String) :
    (trimSpace s = "" → printerStep s = none) ∧
    (trimSpace s ≠ "" →
      printerStep s = some ("\n" ++ trimSpace s ++ "\n\n")) := by
  constructor
  · intro h
    simp [printerStep, h]
  · intro h
    simp [printerStep, h]

/-- Concrete instantiation of C8: a whitespace-only report is suppressed,
a real report is printed trimmed inside the blank-line frame. -/
theorem printer_trim_spec_witness :
    printerStep " \n " = none ∧
    printerStep " hi \n" = some ("\n" ++ trimSpace " hi \n" ++ "\n\n") :=
  ⟨(printer_trim_spec " \n ").1 (by decide),
   (printer_trim_spec " hi \n").2 (by decide)⟩

/-- C9 as stated is false at a concrete input: the dispatch filter in this
variant checks only the pattern and the dedup set, never `IsDir`, so a
directory entry whose path matches the pattern is dispatched. -/
theorem directory_dispatched_cex :
    dispatchList (fun p => p == "subTest.php")
      [⟨"subTest.php", true, none⟩] [] = ["subTest.php"] ∧
    (WalkEntry.mk "subTest.php" true none).isDir = true := by
  decide

/-- C9 amended: a path is enqueued only if it matches the pattern and was
not dispatched before; the entry's directory flag is never consulted, so a
directory whose path matches the pattern is dispatched like any file. -/
theorem dispatch_filter_amended (m : String → Bool) (es : List WalkEntry)
    (p : String) (hmem : p ∈ dispatchList m es []) :
    m p = true ∧ (∃ e ∈ es, e.path = p) ∧
    ∀ (b : Bool) (seen : List String),
      dispatchList m (es.map fun e => { e with isDir := b }) seen =
        dispatchList m es seen := by
  obtain ⟨hm, he⟩ := dispatchList_mem m es [] p hmem
  exact ⟨hm, he, fun b seen =>
    dispatchList_map_path m (fun e => { e with isDir := b })
      (fun e => rfl) es seen⟩

/-- Concrete instantiation of C9 amended. -/
theorem dispatch_filter_amended_witness :
    ("aTest.php" == "aTest.php") = true ∧
    (∃ e ∈ [WalkEntry.mk "aTest.php" false none], e.path = "aTest.php") ∧
    ∀ (b : Bool) (seen : List String),
      dispatchList (fun p => p == "aTest.php")
        ([WalkEntry.mk "aTest.php" false none].map
          fun e => { e with isDir := b }) seen =
      dispatchList (fun p => p == "aTest.php")
        [WalkEntry.mk "aTest.php" false none] seen :=
  dispatch_filter_amended (fun p => p == "aTest.php")
    [WalkEntry.mk "aTest.php" false none] "aTest.php" (by decide)

/-- C10: a command string that is non-empty but starts with whitespace
(whitespace-only included) passes the empty-command check; splitting then
yields the empty string as the first part, so the executable path is empty,
every dispatched file fails at launch and is tallied as a failure, and a run
dispatching at least one file completes with exit status 1 instead of
exiting early with a configuration error. -/
theorem whitespace_command_spec (cfg : Config)
    (compile : String → Option (String → Bool)) (exec : ExecOracle)
    (entries : List WalkEntry) (c : Char) (cs : List Char)
    (m : String → Bool)
    (hdata : cfg.command.data = c :: cs) (hws : goWs c = true)
    (hcomp : compile cfg.pattern = some m)
    (hexec : ∀ args, (exec "" args).ok = false)
    (hne : dispatchList m entries [] ≠ []) :
    cfg.command ≠ "" ∧
    (splitWs cfg.command).headD "x" = "" ∧
    ∃ cnt rs,
      mainRun cfg compile exec entries =
        .done (dispatchList m entries []) cnt rs 1 ∧
      cnt.fail = (dispatchList m entries []).length ∧
      cnt.success = 0 := by
  have hcmdne : cfg.command ≠ "" := by
    intro h
    rw [h] at hdata
    exact List.cons_ne_nil c cs hdata.symm
  have hparts : (splitWs cfg.command).headD "" = "" :=
    splitWs_head_of_ws cfg.command c cs hdata hws ""
  have hfailall : ∀ p, (runCmd (splitWs cfg.command) exec p).failed = true := by
    intro p
    show (!(exec ((splitWs cfg.command).headD "")
      (splitWs cfg.command ++ [p])).ok) = true
    rw [hparts, hexec]
    rfl
  have hfail : (processAll (splitWs cfg.command) exec
      (dispatchList m entries []) ⟨0, 0⟩).1.fail =
      (dispatchList m entries []).length := by
    rw [processAll_fail]
    simp only [Nat.zero_add]
    exact List.countP_eq_length.mpr fun p _ => hfailall p
  have hsucc : (processAll (splitWs cfg.command) exec
      (dispatchList m entries []) ⟨0, 0⟩).1.success = 0 := by
    rw [processAll_success]
    simp only [Nat.zero_add]
    rw [List.countP_eq_zero]
    intro p _
    simp [hfailall p]
  have hlen : 0 < (dispatchList m entries []).length :=
    List.length_pos.mpr hne
  refine ⟨hcmdne, splitWs_head_of_ws cfg.command c cs hdata hws "x",
    (processAll (splitWs cfg.command) exec (dispatchList m entries []) ⟨0, 0⟩).1,
    (processAll (splitWs cfg.command) exec (dispatchList m entries []) ⟨0, 0⟩).2,
    ?_, hfail, hsucc⟩
  rw [mainRun_done_eq cfg compile exec entries m hcmdne hcomp, hfail,
    if_pos hlen]

/-- Concrete instantiation of C10: the command `" "` (a single space) with
one dispatched file yields a completed run with one launch failure and exit
status 1. -/
theorem whitespace_command_spec_witness :
    (" " : String) ≠ "" ∧
    (splitWs " ").headD "x" = "" ∧
    ∃ cnt rs,
      mainRun ⟨".", " ", "p"⟩ (fun _ => some fun _ => true)
        (fun _ _ => ⟨"", false, "0s"⟩) [⟨"a", false, none⟩] =
        .done (dispatchList (fun _ => true) [⟨"a", false, none⟩] []) cnt rs 1 ∧
      cnt.fail = (dispatchList (fun _ => true) [⟨"a", false, none⟩] []).length ∧
      cnt.success = 0 :=
  whitespace_command_spec ⟨".", " ", "p"⟩ (fun _ => some fun _ => true)
    (fun _ _ => ⟨"", false, "0s"⟩) [⟨"a", false, none⟩] ' ' [] (fun _ => true)
    (by decide) (by decide) rfl (fun _ => rfl) (by decide)

end Testrunner
